import Mathlib

/-!
Shallow embedding of the `raytracing` crate (src/raytracing/src/*.rs) and
verification of its specification.  Floating-point (`f64`) arithmetic is
modelled by the real numbers; the `f64` range bounds, which may be
`f64::INFINITY`, are modelled by `EReal`.
-/

noncomputable section

namespace Raytracing

/-- A vector in 3D space (src/raytracing/src/vec3.rs, `Vec3`). -/
structure Vec3 where
  x : ℝ
  y : ℝ
  z : ℝ

namespace Vec3

/-- Constructor `Vec3::new`. -/
def new (x y z : ℝ) : Vec3 := ⟨x, y, z⟩

/-- Dot product `Vec3::dot`. -/
def dot (v other : Vec3) : ℝ :=
  v.x * other.x + v.y * other.y + v.z * other.z

/-- Euclidean length `Vec3::len`: `self.dot(*self).sqrt()`. -/
def len (v : Vec3) : ℝ := Real.sqrt (v.dot v)

instance : Neg Vec3 := ⟨fun v => new (-v.x) (-v.y) (-v.z)⟩

instance : Add Vec3 := ⟨fun a b => new (a.x + b.x) (a.y + b.y) (a.z + b.z)⟩

instance : Sub Vec3 := ⟨fun a b => new (a.x - b.x) (a.y - b.y) (a.z - b.z)⟩

/-- Scalar-times-vector `impl Mul<Vec3> for f64`. -/
instance : HMul ℝ Vec3 Vec3 := ⟨fun k v => new (v.x * k) (v.y * k) (v.z * k)⟩

/-- Vector-times-scalar `impl Mul<f64> for Vec3`. -/
instance : HMul Vec3 ℝ Vec3 := ⟨fun v k => new (v.x * k) (v.y * k) (v.z * k)⟩

/-- Vector-divided-by-scalar `impl Div<f64> for Vec3`. -/
instance : HDiv Vec3 ℝ Vec3 := ⟨fun v k => new (v.x / k) (v.y / k) (v.z / k)⟩

/-- Normalization `Vec3::normalized`: `*self / self.len()`. -/
def normalized (v : Vec3) : Vec3 := v / v.len

end Vec3

/-- A color with red, green, and blue channels
(src/raytracing/src/color.rs, `Color(pub f64, pub f64, pub f64)`).
The Rust tuple fields `.0`, `.1`, `.2` are named `r`, `g`, `b` here. -/
structure Color where
  r : ℝ
  g : ℝ
  b : ℝ

namespace Color

/-- The constant `Color::BLACK`. -/
def BLACK : Color := ⟨0, 0, 0⟩

/-- The constant `Color::WHITE`. -/
def WHITE : Color := ⟨1, 1, 1⟩

instance : Add Color := ⟨fun a b => ⟨a.r + b.r, a.g + b.g, a.b + b.b⟩⟩

/-- Scalar-times-color `impl Mul<Color> for f64`. -/
instance : HMul ℝ Color Color := ⟨fun k c => ⟨k * c.r, k * c.g, k * c.b⟩⟩

/-- Color-times-scalar `impl Mul<f64> for Color`. -/
instance : HMul Color ℝ Color := ⟨fun c k => ⟨k * c.r, k * c.g, k * c.b⟩⟩

end Color

/-- Rust's saturating `as u8` cast applied to a real number: the value is
truncated toward zero and clamped into `[0, 255]`.  After clamping,
truncation toward zero agrees with `Int.floor` (negative inputs land on the
`0` clamp either way), so the floor form is extensionally the same map. -/
def rustCastU8 (x : ℝ) : ℤ := max 0 (min 255 ⌊x⌋)

/-- Free function `to_u8` in color.rs: `(256.0 * f) as u8`. -/
def to_u8 (f : ℝ) : ℤ := rustCastU8 (256 * f)

/-- Method `Color::to_u8`: converts each channel with `to_u8`. -/
def Color.to_u8 (c : Color) : ℤ × ℤ × ℤ :=
  (Raytracing.to_u8 c.r, Raytracing.to_u8 c.g, Raytracing.to_u8 c.b)

/-- A ray `origin + t*direction` (src/raytracing/src/ray.rs, `Ray`). -/
structure Ray where
  origin : Vec3
  direction : Vec3

/-- Method `Ray::at`: `self.origin + t * self.direction`. -/
def Ray.at (ray : Ray) (t : ℝ) : Vec3 := ray.origin + t * ray.direction

/-- Material of a sphere (src/raytracing/src/scene.rs, `Material`). -/
structure Material where
  color : Color
  specular : Option ℤ
  reflective : ℝ

/-- The constant `Material::BLACK`. -/
def Material.BLACK : Material := ⟨Color.BLACK, none, 0⟩

/-- Where a light comes from (src/raytracing/src/scene.rs, `LightSource`). -/
inductive LightSource where
  | ambient : LightSource
  | point (position : Vec3) : LightSource
  | directional (direction : Vec3) : LightSource

/-- A light source with its intensity (src/raytracing/src/scene.rs, `Light`). -/
structure Light where
  intensity : ℝ
  source : LightSource

/-- A sphere in a scene (src/raytracing/src/scene.rs, `Sphere`). -/
structure Sphere where
  center : Vec3
  radius : ℝ
  material : Material

/-- A scene (src/raytracing/src/scene.rs, `Scene`). -/
structure Scene where
  background_color : Color
  lights : List Light
  spheres : List Sphere

/-- Method `Sphere::intersect_ray` (scene.rs lines 70-94), translated
clause by clause from the Rust source. -/
def Sphere.intersect_ray (s : Sphere) (ray : Ray) : List ℝ :=
  let r := s.radius
  let co := ray.origin - s.center
  let a := ray.direction.dot ray.direction
  let b := 2 * co.dot ray.direction
  let c := co.dot co - r * r
  let discriminant := b * b - 4 * a * c
  if discriminant < 0 then []
  else if discriminant = 0 then [-b / (2 * a)]
  else
    let t1 := (-b + Real.sqrt discriminant) / (2 * a)
    let t2 := (-b - Real.sqrt discriminant) / (2 * a)
    if t1 < t2 then [t1, t2] else [t2, t1]

/-- Rust `Range::contains` for an `f64` range whose bounds may be
infinite: `start <= t && t < end`. -/
def inRange (tmin tmax : EReal) (t : ℝ) : Prop :=
  tmin ≤ (t : EReal) ∧ (t : EReal) < tmax

instance (tmin tmax : EReal) (t : ℝ) : Decidable (inRange tmin tmax t) :=
  inferInstanceAs (Decidable (_ ∧ _))

/-- One update of the `closest` accumulator in `closest_intersection`
(raytracer.rs lines 65-75): skip `t` when the range does not contain it,
otherwise replace `closest` when it is empty or `t` is smaller. -/
def closestStep (tmin tmax : EReal) (closest : Option (Sphere × ℝ))
    (sphere : Sphere) (t : ℝ) : Option (Sphere × ℝ) :=
  if inRange tmin tmax t then
    match closest with
    | none => some (sphere, t)
    | some (s0, closest_t) => if t < closest_t then some (sphere, t) else some (s0, closest_t)
  else closest

/-- Function `closest_intersection` (raytracer.rs lines 63-77): fold over
the scene's spheres, and for each over its intersection `t` values. -/
def closest_intersection (scene : Scene) (ray : Ray) (tmin tmax : EReal) :
    Option (Sphere × ℝ) :=
  scene.spheres.foldl
    (fun closest sphere =>
      (sphere.intersect_ray ray).foldl
        (fun closest t => closestStep tmin tmax closest sphere t) closest)
    none

/-- Function `reflect_ray` (raytracer.rs lines 164-166): `r - 2.0 * n * n.dot(r)`. -/
def reflect_ray (r n : Vec3) : Vec3 := r - ((2 : ℝ) * n) * n.dot r

/-- Shared non-ambient branch of the light loop in `compute_lighting`
(raytracer.rs lines 123-157): shadow check over `0.001..t_max`, then the
diffuse and specular terms. -/
def nonAmbientContribution (scene : Scene) (p n v : Vec3) (specular : Option ℤ)
    (intensity : ℝ) (l : Vec3) (t_max : EReal) : ℝ :=
  if (closest_intersection scene ⟨p, l⟩ ((0.001 : ℝ) : EReal) t_max).isSome then 0
  else
    let n_dot_l := n.dot l
    let diffuse := if n_dot_l > 0 then intensity * n_dot_l / (n.len * l.len) else 0
    let spec := specular.elim 0 fun s =>
      let r := reflect_ray (-l) n
      let r_dot_v := r.dot v
      if r_dot_v > 0 then intensity * (r_dot_v / (r.len * v.len)) ^ s else 0
    diffuse + spec

/-- Amount one light adds to the accumulator `i` in `compute_lighting`'s
loop (raytracer.rs lines 118-159): ambient lights add their intensity; for
the others the light vector and shadow ceiling come from the source kind
(point: `position - p` and `1.0`; directional: `direction` and infinity). -/
def lightContribution (scene : Scene) (p n v : Vec3) (specular : Option ℤ)
    (light : Light) : ℝ :=
  match light.source with
  | LightSource.ambient => light.intensity
  | LightSource.point position =>
      nonAmbientContribution scene p n v specular light.intensity (position - p) ((1 : ℝ) : EReal)
  | LightSource.directional direction =>
      nonAmbientContribution scene p n v specular light.intensity direction ⊤

/-- Function `compute_lighting` (raytracer.rs lines 116-161): accumulate
the per-light contributions over the scene's lights, starting from `0.0`. -/
def compute_lighting (scene : Scene) (p n v : Vec3) (specular : Option ℤ) : ℝ :=
  scene.lights.foldl (fun i light => i + lightContribution scene p n v specular light) 0

/-- Function `trace_ray` (raytracer.rs lines 80-108). -/
def trace_ray (scene : Scene) (ray : Ray) (tmin tmax : EReal)
    (recursion_depth : ℤ) : Color :=
  match closest_intersection scene ray tmin tmax with
  | none => scene.background_color
  | some (sphere, t) =>
      let p := ray.at t
      let n := (p - sphere.center).normalized
      let material := sphere.material
      let local_color :=
        material.color * compute_lighting scene p n (-ray.direction) material.specular
      let r := material.reflective
      if h : recursion_depth ≤ 0 ∨ r ≤ 0 then local_color
      else
        let reflected_color :=
          trace_ray scene ⟨p, reflect_ray ray.direction n⟩
            ((0.001 : ℝ) : EReal) ⊤ (recursion_depth - 1)
        local_color * (1 - r) + reflected_color * r
termination_by recursion_depth.toNat
decreasing_by
  push_neg at h
  omega

/-- A rectangular canvas of RGB color values (src/raytracing/src/canvas.rs,
`Canvas`); the `Vec<Color>` pixel buffer is a `List Color`. -/
structure Canvas where
  width : ℕ
  height : ℕ
  pixels : List Color

/-- Constructor `Canvas::new`: all pixels black. -/
def Canvas.new (width height : ℕ) : Canvas :=
  ⟨width, height, List.replicate (width * height) Color.BLACK⟩

/-- Method `Canvas::put_pixel` (canvas.rs lines 33-42): centered
coordinates, silently discarding out-of-bounds writes.  `width / 2` is the
Rust `usize` division, i.e. `Nat` division. -/
def Canvas.put_pixel (c : Canvas) (x y : ℤ) (color : Color) : Canvas :=
  let w2 : ℤ := (c.width / 2 : ℕ)
  let h2 : ℤ := (c.height / 2 : ℕ)
  if x < -w2 ∨ x ≥ w2 ∨ y < -h2 ∨ y ≥ h2 then c
  else
    let xi : ℕ := (w2 + x).toNat
    let yi : ℕ := (h2 - 1 - y).toNat
    { c with pixels := c.pixels.set (yi * c.width + xi) color }

/-- Reading a pixel back from the buffer at the index `put_pixel` addresses
for `(x, y)`; an accessor used only to state frame-buffer properties. -/
def Canvas.get_pixel (c : Canvas) (x y : ℤ) : Color :=
  let w2 : ℤ := (c.width / 2 : ℕ)
  let h2 : ℤ := (c.height / 2 : ℕ)
  c.pixels.getD ((h2 - 1 - y).toNat * c.width + (w2 + x).toNat) Color.BLACK

/-- The centered-coordinate bounds `[-width/2, width/2) × [-height/2,
height/2)` within which `put_pixel` writes. -/
def Canvas.inBounds (c : Canvas) (x y : ℤ) : Prop :=
  -((c.width / 2 : ℕ) : ℤ) ≤ x ∧ x < ((c.width / 2 : ℕ) : ℤ) ∧
  -((c.height / 2 : ℕ) : ℤ) ≤ y ∧ y < ((c.height / 2 : ℕ) : ℤ)

/-- The renderer configuration (raytracer.rs, `Raytracer`). -/
structure Raytracer where
  canvas_width : ℕ
  canvas_height : ℕ
  viewport_width : ℝ
  viewport_height : ℝ
  distance_to_projection_plane : ℝ
  scene : Scene

/-- Method `Raytracer::canvas_to_viewport` (raytracer.rs lines 49-55). -/
def Raytracer.canvas_to_viewport (rt : Raytracer) (x y : ℝ) : Vec3 :=
  ⟨x * rt.viewport_width / (rt.canvas_width : ℝ),
   y * rt.viewport_height / (rt.canvas_height : ℝ),
   rt.distance_to_projection_plane⟩

/-- The list a Rust `lo..hi` integer for-loop iterates over. -/
def intRange (lo hi : ℤ) : List ℤ :=
  (List.range (hi - lo).toNat).map fun (i : ℕ) => lo + (i : ℤ)

/-- Method `Raytracer::go` (raytracer.rs lines 20-47).  For non-negative
`cw` the Rust bound `-cw / 2` (truncating division) equals `-(cw / 2)`. -/
def Raytracer.go (rt : Raytracer) : Canvas :=
  let origin := Vec3.new 0 0 0
  let cw : ℤ := rt.canvas_width
  let ch : ℤ := rt.canvas_height
  let recursion_depth : ℤ := 3
  let offset : List ℝ := [-0.4, -0.2, 0, 0.2, 0.4]
  (intRange (-(cw / 2)) (cw / 2)).foldl
    (fun (canvas : Canvas) (x : ℤ) =>
      (intRange (-(ch / 2)) (ch / 2)).foldl
        (fun (canvas : Canvas) (y : ℤ) =>
          let average_color :=
            offset.foldl
              (fun average_color x_offset =>
                offset.foldl
                  (fun average_color y_offset =>
                    let direction :=
                      rt.canvas_to_viewport ((x : ℝ) + x_offset) ((y : ℝ) + y_offset)
                    let color :=
                      trace_ray rt.scene ⟨origin, direction⟩ ((1 : ℝ) : EReal) ⊤ recursion_depth
                    average_color + (0.04 : ℝ) * color)
                  average_color)
              Color.BLACK
          canvas.put_pixel x y average_color)
        canvas)
    (Canvas.new rt.canvas_width rt.canvas_height)

/-- The sphere/`t` candidate pairs `closest_intersection` scans, in scan
order: sphere list order, each sphere contributing its `intersect_ray`
values in order. -/
def candidatePairs (scene : Scene) (ray : Ray) : List (Sphere × ℝ) :=
  scene.spheres.flatMap fun sphere =>
    (sphere.intersect_ray ray).map fun t => (sphere, t)

/-- The accumulator update of `closest_intersection` viewed on a candidate
pair. -/
def pairStep (tmin tmax : EReal) (closest : Option (Sphere × ℝ))
    (p : Sphere × ℝ) : Option (Sphere × ℝ) :=
  closestStep tmin tmax closest p.1 p.2

/-- Fuel-instrumented variant of `trace_ray`, structurally recursive on
`fuel`: it returns `none` when the reflection recursion would nest deeper
than `fuel` levels, and otherwise the value `trace_ray` computes.  Used to
state the recursion-depth bound of `trace_ray`. -/
def trace_ray_fuel (fuel : ℕ) (scene : Scene) (ray : Ray) (tmin tmax : EReal)
    (recursion_depth : ℤ) : Option Color :=
  match closest_intersection scene ray tmin tmax with
  | none => some scene.background_color
  | some (sphere, t) =>
      let p := ray.at t
      let n := (p - sphere.center).normalized
      let material := sphere.material
      let local_color :=
        material.color * compute_lighting scene p n (-ray.direction) material.specular
      let r := material.reflective
      if recursion_depth ≤ 0 ∨ r ≤ 0 then some local_color
      else
        match fuel with
        | 0 => none
        | fuel + 1 =>
            (trace_ray_fuel fuel scene ⟨p, reflect_ray ray.direction n⟩
                ((0.001 : ℝ) : EReal) ⊤ (recursion_depth - 1)).map
              fun reflected_color => local_color * (1 - r) + reflected_color * r

/-- Sum of a list of colors (channelwise). -/
def colorSum (l : List Color) : Color := l.foldl (· + ·) Color.BLACK

/-- The sub-pixel offsets used by `Raytracer::go`. -/
def subPixelOffsets : List ℝ := [-0.4, -0.2, 0, 0.2, 0.4]

/-- The 25 colors `Raytracer::go` traces for the pixel `(x, y)`: one ray
per offset pair, from the origin through the viewport direction for
`(x + x_offset, y + y_offset)`, over `[1.0, ∞)` with recursion budget 3. -/
def sampleColors (rt : Raytracer) (x y : ℤ) : List Color :=
  subPixelOffsets.flatMap fun x_offset =>
    subPixelOffsets.map fun y_offset =>
      trace_ray rt.scene
        ⟨Vec3.new 0 0 0, rt.canvas_to_viewport ((x : ℝ) + x_offset) ((y : ℝ) + y_offset)⟩
        ((1 : ℝ) : EReal) ⊤ 3

/-- The per-pixel sampling fold of `Raytracer::go`, as written in the
source: starting from black, add `0.04 * color` for each of the 5×5
sub-pixel offset pairs. -/
def pixelSampleFold (rt : Raytracer) (x y : ℤ) : Color :=
  subPixelOffsets.foldl
    (fun average_color x_offset =>
      subPixelOffsets.foldl
        (fun average_color y_offset =>
          average_color + (0.04 : ℝ) *
            trace_ray rt.scene
              ⟨Vec3.new 0 0 0,
                rt.canvas_to_viewport ((x : ℝ) + x_offset) ((y : ℝ) + y_offset)⟩
              ((1 : ℝ) : EReal) ⊤ 3)
        average_color)
    Color.BLACK

/-- Concrete unit sphere at `(0, 0, 3)`, used by witnesses. -/
def exSphere : Sphere := ⟨Vec3.new 0 0 3, 1, Material.BLACK⟩

/-- Concrete ray from the origin along `(0, 0, 1)`, used by witnesses. -/
def exRay : Ray := ⟨Vec3.new 0 0 0, Vec3.new 0 0 1⟩

/-- Concrete scene holding only `exSphere`, used by witnesses. -/
def exScene : Scene := ⟨Color.BLACK, [], [exSphere]⟩

section ComponentLemmas

variable (a b : Vec3) (k : ℝ)

@[simp] theorem Vec3.new_x (x y z : ℝ) : (Vec3.new x y z).x = x := rfl

@[simp] theorem Vec3.new_y (x y z : ℝ) : (Vec3.new x y z).y = y := rfl

@[simp] theorem Vec3.new_z (x y z : ℝ) : (Vec3.new x y z).z = z := rfl

@[simp] theorem Vec3.neg_x : (-a).x = -a.x := rfl

@[simp] theorem Vec3.neg_y : (-a).y = -a.y := rfl

@[simp] theorem Vec3.neg_z : (-a).z = -a.z := rfl

@[simp] theorem Vec3.add_x : (a + b).x = a.x + b.x := rfl

@[simp] theorem Vec3.add_y : (a + b).y = a.y + b.y := rfl

@[simp] theorem Vec3.add_z : (a + b).z = a.z + b.z := rfl

@[simp] theorem Vec3.sub_x : (a - b).x = a.x - b.x := rfl

@[simp] theorem Vec3.sub_y : (a - b).y = a.y - b.y := rfl

@[simp] theorem Vec3.sub_z : (a - b).z = a.z - b.z := rfl

@[simp] theorem Vec3.smul_x : (k * a).x = a.x * k := rfl

@[simp] theorem Vec3.smul_y : (k * a).y = a.y * k := rfl

@[simp] theorem Vec3.smul_z : (k * a).z = a.z * k := rfl

@[simp] theorem Vec3.mulk_x : (a * k).x = a.x * k := rfl

@[simp] theorem Vec3.mulk_y : (a * k).y = a.y * k := rfl

@[simp] theorem Vec3.mulk_z : (a * k).z = a.z * k := rfl

@[simp] theorem Vec3.divk_x : (a / k).x = a.x / k := rfl

@[simp] theorem Vec3.divk_y : (a / k).y = a.y / k := rfl

@[simp] theorem Vec3.divk_z : (a / k).z = a.z / k := rfl

end ComponentLemmas

section ColorComponentLemmas

variable (c d : Color) (k : ℝ)

@[simp] theorem Color.add_r : (c + d).r = c.r + d.r := rfl

@[simp] theorem Color.add_g : (c + d).g = c.g + d.g := rfl

@[simp] theorem Color.add_b : (c + d).b = c.b + d.b := rfl

@[simp] theorem Color.smul_r : (k * c).r = k * c.r := rfl

@[simp] theorem Color.smul_g : (k * c).g = k * c.g := rfl

@[simp] theorem Color.smul_b : (k * c).b = k * c.b := rfl

@[simp] theorem Color.mulk_r : (c * k).r = k * c.r := rfl

@[simp] theorem Color.mulk_g : (c * k).g = k * c.g := rfl

@[simp] theorem Color.mulk_b : (c * k).b = k * c.b := rfl

end ColorComponentLemmas

theorem Vec3.eq_iff_components {a b : Vec3} : a = b ↔ a.x = b.x ∧ a.y = b.y ∧ a.z = b.z := by
  cases a; cases b; simp

theorem Color.eq_iff_channels {a b : Color} : a = b ↔ a.r = b.r ∧ a.g = b.g ∧ a.b = b.b := by
  cases a; cases b; simp

theorem Vec3.dot_self_nonneg (v : Vec3) : 0 ≤ v.dot v := by
  simp only [Vec3.dot]
  nlinarith [mul_self_nonneg v.x, mul_self_nonneg v.y, mul_self_nonneg v.z]

/-- C1: `Sphere::intersect_ray` returns the empty list when the
discriminant is negative, the single root `-b/(2a)` when it is zero, and
the two distinct roots `(-b ∓ √disc)/(2a)` in ascending order when it is
positive, with no filtering of the `t` values by sign or range. -/
theorem intersect_ray_root_cases (s : Sphere) (ray : Ray) (a b cc disc : ℝ)
    (ha : a = ray.direction.dot ray.direction)
    (hb : b = 2 * (ray.origin - s.center).dot ray.direction)
    (hcc : cc = (ray.origin - s.center).dot (ray.origin - s.center) - s.radius * s.radius)
    (hdisc : disc = b * b - 4 * a * cc) :
    (disc < 0 → s.intersect_ray ray = []) ∧
    (disc = 0 → s.intersect_ray ray = [-b / (2 * a)]) ∧
    (0 < disc →
      s.intersect_ray ray =
        [(-b - Real.sqrt disc) / (2 * a), (-b + Real.sqrt disc) / (2 * a)] ∧
      (-b - Real.sqrt disc) / (2 * a) < (-b + Real.sqrt disc) / (2 * a)) := by
  subst hdisc hcc hb ha
  refine ⟨fun h => ?_, fun h => ?_, fun h => ?_⟩
  · simp only [Sphere.intersect_ray]
    rw [if_pos h]
  · simp only [Sphere.intersect_ray]
    rw [if_neg (by linarith), if_pos h]
  · have hd0 : 0 ≤ ray.direction.dot ray.direction := Vec3.dot_self_nonneg _
    have ha0 : ray.direction.dot ray.direction ≠ 0 := by
      intro h0
      have hx : ray.direction.x = 0 := by
        simp only [Vec3.dot] at h0
        nlinarith [mul_self_nonneg ray.direction.x, mul_self_nonneg ray.direction.y,
          mul_self_nonneg ray.direction.z]
      have hy : ray.direction.y = 0 := by
        simp only [Vec3.dot] at h0
        nlinarith [mul_self_nonneg ray.direction.x, mul_self_nonneg ray.direction.y,
          mul_self_nonneg ray.direction.z]
      have hz : ray.direction.z = 0 := by
        simp only [Vec3.dot] at h0
        nlinarith [mul_self_nonneg ray.direction.x, mul_self_nonneg ray.direction.y,
          mul_self_nonneg ray.direction.z]
      have hb0 : (ray.origin - s.center).dot ray.direction = 0 := by
        simp [Vec3.dot, hx, hy, hz]
      rw [hb0, h0] at h
      norm_num at h
    have hapos : 0 < ray.direction.dot ray.direction := lt_of_le_of_ne hd0 (Ne.symm ha0)
    have hsq : 0 < Real.sqrt (2 * (ray.origin - s.center).dot ray.direction *
        (2 * (ray.origin - s.center).dot ray.direction) -
        4 * ray.direction.dot ray.direction *
          ((ray.origin - s.center).dot (ray.origin - s.center) - s.radius * s.radius)) :=
      Real.sqrt_pos.mpr h
    have h2a : 0 < 2 * ray.direction.dot ray.direction := by linarith
    have hlt : (-(2 * (ray.origin - s.center).dot ray.direction) -
          Real.sqrt (2 * (ray.origin - s.center).dot ray.direction *
            (2 * (ray.origin - s.center).dot ray.direction) -
            4 * ray.direction.dot ray.direction *
              ((ray.origin - s.center).dot (ray.origin - s.center) - s.radius * s.radius))) /
            (2 * ray.direction.dot ray.direction) <
        (-(2 * (ray.origin - s.center).dot ray.direction) +
          Real.sqrt (2 * (ray.origin - s.center).dot ray.direction *
            (2 * (ray.origin - s.center).dot ray.direction) -
            4 * ray.direction.dot ray.direction *
              ((ray.origin - s.center).dot (ray.origin - s.center) - s.radius * s.radius))) /
            (2 * ray.direction.dot ray.direction) := by
      exact (div_lt_div_iff_of_pos_right h2a).mpr (by linarith)
    refine ⟨?_, hlt⟩
    simp only [Sphere.intersect_ray]
    rw [if_neg (by linarith), if_neg (ne_of_gt h), if_neg (not_lt.mpr (le_of_lt hlt))]

/-- C1 witness: for the unit sphere at `(0,0,3)` and the ray from the
origin along `(0,0,1)` the discriminant is `4 > 0` and the returned roots
are `[2, 4]`. -/
theorem intersect_ray_root_cases_witness :
    (0 : ℝ) < 4 ∧
      Sphere.intersect_ray ⟨Vec3.new 0 0 3, 1, Material.BLACK⟩
        ⟨Vec3.new 0 0 0, Vec3.new 0 0 1⟩ = [2, 4] := by
  have h4 : Real.sqrt 4 = 2 := by
    rw [show (4 : ℝ) = 2 ^ 2 by norm_num]
    exact Real.sqrt_sq (by norm_num)
  have key := intersect_ray_root_cases ⟨Vec3.new 0 0 3, 1, Material.BLACK⟩
      ⟨Vec3.new 0 0 0, Vec3.new 0 0 1⟩ 1 (-6) 8 4
      (by simp [Vec3.dot]) (by simp [Vec3.dot]; norm_num)
      (by simp [Vec3.dot]; norm_num) (by norm_num)
  refine ⟨by norm_num, ?_⟩
  rw [(key.2.2 (by norm_num)).1, h4]
  norm_num

/-- C7: `reflect_ray` sends a vector aligned with a unit-length normal to
its negation, and fixes any vector perpendicular to the normal. -/
theorem reflect_ray_roundtrip :
    (∀ (n r : Vec3) (c : ℝ), n.len = 1 → r = c * n → reflect_ray r n = -r) ∧
    (∀ n r : Vec3, n.dot r = 0 → reflect_ray r n = r) := by
  constructor
  · intro n r c hlen hr
    simp only [Vec3.len] at hlen
    have hn : n.x * n.x + n.y * n.y + n.z * n.z = 1 := by
      have h1 := Real.sqrt_eq_one.mp hlen
      simpa [Vec3.dot] using h1
    subst hr
    rw [Vec3.eq_iff_components]
    refine ⟨?_, ?_, ?_⟩ <;>
      simp only [reflect_ray, Vec3.dot, Vec3.sub_x, Vec3.sub_y, Vec3.sub_z, Vec3.smul_x,
        Vec3.smul_y, Vec3.smul_z, Vec3.mulk_x, Vec3.mulk_y, Vec3.mulk_z, Vec3.neg_x,
        Vec3.neg_y, Vec3.neg_z]
    · linear_combination (-2 * n.x * c) * hn
    · linear_combination (-2 * n.y * c) * hn
    · linear_combination (-2 * n.z * c) * hn
  · intro n r hperp
    simp only [Vec3.dot] at hperp
    rw [Vec3.eq_iff_components]
    refine ⟨?_, ?_, ?_⟩ <;>
      simp only [reflect_ray, Vec3.dot, Vec3.sub_x, Vec3.sub_y, Vec3.sub_z, Vec3.smul_x,
        Vec3.smul_y, Vec3.smul_z, Vec3.mulk_x, Vec3.mulk_y, Vec3.mulk_z]
    · linear_combination (-2 * n.x) * hperp
    · linear_combination (-2 * n.y) * hperp
    · linear_combination (-2 * n.z) * hperp

/-- C7 witness: with normal `(0,1,0)`, the aligned vector `(0,3,0)` maps
to `(0,-3,0)` and the perpendicular vector `(1,0,0)` is unchanged. -/
theorem reflect_ray_roundtrip_witness :
    ((Vec3.new 0 1 0).len = 1 ∧ Vec3.new 0 3 0 = (3 : ℝ) * Vec3.new 0 1 0 ∧
      reflect_ray (Vec3.new 0 3 0) (Vec3.new 0 1 0) = -Vec3.new 0 3 0) ∧
    ((Vec3.new 0 1 0).dot (Vec3.new 1 0 0) = 0 ∧
      reflect_ray (Vec3.new 1 0 0) (Vec3.new 0 1 0) = Vec3.new 1 0 0) := by
  have hlen : (Vec3.new 0 1 0).len = 1 := by
    simp [Vec3.len, Vec3.dot]
  have halign : Vec3.new 0 3 0 = (3 : ℝ) * Vec3.new 0 1 0 := by
    rw [Vec3.eq_iff_components]; norm_num
  have hperp : (Vec3.new 0 1 0).dot (Vec3.new 1 0 0) = 0 := by
    simp [Vec3.dot]
  exact ⟨⟨hlen, halign, reflect_ray_roundtrip.1 _ _ 3 hlen halign⟩,
    hperp, reflect_ray_roundtrip.2 _ _ hperp⟩

/-- C8: `to_u8` maps every channel value below 0 to 0 and every value at
or above 1 to 255; it is invariant under first clamping its argument to
`[0, 1]`; on `[0, 1]` it is the linear quantization `min 255 ⌊256·f⌋`; and
`Color::to_u8` applies it to each of the three channels. -/
theorem to_u8_clamp_linear :
    (∀ f : ℝ, f < 0 → to_u8 f = 0) ∧
    (∀ f : ℝ, 1 ≤ f → to_u8 f = 255) ∧
    (∀ f : ℝ, to_u8 f = to_u8 (max 0 (min 1 f))) ∧
    (∀ f : ℝ, 0 ≤ f → f ≤ 1 → to_u8 f = min 255 ⌊(256 : ℝ) * f⌋) ∧
    (∀ c : Color, c.to_u8 = (to_u8 c.r, to_u8 c.g, to_u8 c.b)) := by
  have hneg : ∀ f : ℝ, f < 0 → to_u8 f = 0 := by
    intro f hf
    have h1 : ⌊(256 : ℝ) * f⌋ < 0 := by
      rw [Int.floor_lt]
      push_cast
      nlinarith
    unfold to_u8 rustCastU8
    omega
  have hone : ∀ f : ℝ, 1 ≤ f → to_u8 f = 255 := by
    intro f hf
    have h1 : (256 : ℤ) ≤ ⌊(256 : ℝ) * f⌋ := by
      rw [Int.le_floor]
      push_cast
      nlinarith
    unfold to_u8 rustCastU8
    omega
  have hin : ∀ f : ℝ, 0 ≤ f → f ≤ 1 → to_u8 f = min 255 ⌊(256 : ℝ) * f⌋ := by
    intro f h0 h1
    have h2 : (0 : ℤ) ≤ ⌊(256 : ℝ) * f⌋ := Int.floor_nonneg.mpr (by nlinarith)
    unfold to_u8 rustCastU8
    omega
  refine ⟨hneg, hone, ?_, hin, fun c => rfl⟩
  intro f
  rcases lt_or_le f 0 with h | h
  · rw [hneg f h]
    have hc : max 0 (min 1 f) = 0 := by
      rw [max_eq_left]
      exact (min_le_right 1 f).trans h.le
    rw [hc]
    unfold to_u8 rustCastU8
    norm_num
  · rcases le_or_lt 1 f with h1 | h1
    · rw [hone f h1]
      have hc : max 0 (min 1 f) = 1 := by
        rw [min_eq_left h1, max_eq_right zero_le_one]
      rw [hc, hone 1 le_rfl]
    · have hc : max 0 (min 1 f) = f := by
        rw [min_eq_right h1.le, max_eq_right h]
      rw [hc]

theorem rowmajor_index_inj {w r c r' c' : ℕ} (hc : c < w) (hc' : c' < w)
    (h : r * w + c = r' * w + c') : r = r' ∧ c = c' := by
  have hw : 0 < w := lt_of_le_of_lt (Nat.zero_le c) hc
  have h1 : (r * w + c) % w = c % w := by
    rw [Nat.add_comm, Nat.add_mul_mod_self_right]
  have h2 : (r' * w + c') % w = c' % w := by
    rw [Nat.add_comm, Nat.add_mul_mod_self_right]
  have hmod : c = c' := by
    rw [← Nat.mod_eq_of_lt hc, ← Nat.mod_eq_of_lt hc', ← h1, ← h2, h]
  refine ⟨?_, hmod⟩
  have h2 : r * w = r' * w := by omega
  exact Nat.eq_of_mul_eq_mul_right hw h2

theorem index_lt_size {w h R C : ℕ} (hR : R < h) (hC : C < w) : R * w + C < w * h := by
  calc R * w + C < R * w + w := by omega
    _ = (R + 1) * w := by ring
    _ ≤ h * w := Nat.mul_le_mul_right w hR
    _ = w * h := Nat.mul_comm h w

theorem getD_set_eq (l : List Color) (i : ℕ) (a : Color) (h : i < l.length) :
    (l.set i a).getD i Color.BLACK = a := by
  rw [List.getD_eq_getElem?_getD, List.getElem?_set_self h]
  rfl

theorem getD_set_ne (l : List Color) {i j : ℕ} (a : Color) (h : i ≠ j) :
    (l.set i a).getD j Color.BLACK = l.getD j Color.BLACK := by
  rw [List.getD_eq_getElem?_getD, List.getElem?_set_ne h, ← List.getD_eq_getElem?_getD]

theorem Canvas.put_pixel_width (c : Canvas) (x y : ℤ) (col : Color) :
    (c.put_pixel x y col).width = c.width := by
  simp only [Canvas.put_pixel]
  split_ifs <;> rfl

theorem Canvas.put_pixel_height (c : Canvas) (x y : ℤ) (col : Color) :
    (c.put_pixel x y col).height = c.height := by
  simp only [Canvas.put_pixel]
  split_ifs <;> rfl

theorem Canvas.put_pixel_length (c : Canvas) (x y : ℤ) (col : Color) :
    (c.put_pixel x y col).pixels.length = c.pixels.length := by
  simp only [Canvas.put_pixel]
  split_ifs <;> simp

theorem Canvas.get_put_same (c : Canvas) (x y : ℤ) (col : Color)
    (hlen : c.pixels.length = c.width * c.height) (hb : c.inBounds x y) :
    (c.put_pixel x y col).get_pixel x y = col := by
  obtain ⟨hx1, hx2, hy1, hy2⟩ := hb
  unfold Canvas.put_pixel Canvas.get_pixel
  rw [if_neg (by omega)]
  dsimp only
  apply getD_set_eq
  rw [hlen]
  exact index_lt_size (by omega) (by omega)

theorem Canvas.get_put_other (c : Canvas) {x y x' y' : ℤ} (col : Color)
    (hb : c.inBounds x y) (hb' : c.inBounds x' y') (hne : x' ≠ x ∨ y' ≠ y) :
    (c.put_pixel x y col).get_pixel x' y' = c.get_pixel x' y' := by
  obtain ⟨hx1, hx2, hy1, hy2⟩ := hb
  obtain ⟨hx1', hx2', hy1', hy2'⟩ := hb'
  unfold Canvas.put_pixel Canvas.get_pixel
  rw [if_neg (by omega)]
  dsimp only
  apply getD_set_ne
  intro heq
  obtain ⟨hr, hcc⟩ := rowmajor_index_inj (by omega) (by omega) heq
  rcases hne with h | h <;> omega

/-- C9: `Canvas::put_pixel` is a silent no-op outside the centered bounds
`[-width/2, width/2) × [-height/2, height/2)`; inside the bounds it sets
the addressed pixel to the given color and leaves every other in-bounds
pixel unchanged. -/
theorem put_pixel_frame_effect (c : Canvas) (x y : ℤ) (color : Color) :
    (¬c.inBounds x y → c.put_pixel x y color = c) ∧
    (c.pixels.length = c.width * c.height → c.inBounds x y →
      (c.put_pixel x y color).get_pixel x y = color ∧
      ∀ x' y' : ℤ, c.inBounds x' y' → (x', y') ≠ (x, y) →
        (c.put_pixel x y color).get_pixel x' y' = c.get_pixel x' y') := by
  constructor
  · intro h
    unfold Canvas.inBounds at h
    unfold Canvas.put_pixel
    rw [if_pos (by omega)]
  · intro hlen hb
    refine ⟨Canvas.get_put_same c x y color hlen hb, ?_⟩
    intro x' y' hb' hne
    apply Canvas.get_put_other c color hb hb'
    by_contra hcon
    push_neg at hcon
    exact hne (by rw [hcon.1, hcon.2])

/-- C9 witness: on a 4×2 canvas, the write at `(5, 0)` is out of bounds
and leaves the canvas unchanged, while the write at `(1, 0)` lands on the
addressed pixel. -/
theorem put_pixel_frame_effect_witness :
    ¬(Canvas.new 4 2).inBounds 5 0 ∧
    (Canvas.new 4 2).put_pixel 5 0 Color.WHITE = Canvas.new 4 2 ∧
    ((Canvas.new 4 2).put_pixel 1 0 Color.WHITE).get_pixel 1 0 = Color.WHITE := by
  have hoob : ¬(Canvas.new 4 2).inBounds 5 0 := by
    norm_num [Canvas.inBounds, Canvas.new]
  have hlen : (Canvas.new 4 2).pixels.length =
      (Canvas.new 4 2).width * (Canvas.new 4 2).height := by
    simp [Canvas.new]
  have hib : (Canvas.new 4 2).inBounds 1 0 := by
    norm_num [Canvas.inBounds, Canvas.new]
  exact ⟨hoob, (put_pixel_frame_effect _ 5 0 Color.WHITE).1 hoob,
    ((put_pixel_frame_effect _ 1 0 Color.WHITE).2 hlen hib).1⟩

/-- C8 witness: `to_u8` sends `-0.5` to 0, `1.5` to 255, and `0.5` to
`min 255 ⌊128⌋ = 128`. -/
theorem to_u8_clamp_linear_witness :
    ((-0.5 : ℝ) < 0 ∧ to_u8 (-0.5) = 0) ∧
    ((1 : ℝ) ≤ 1.5 ∧ to_u8 1.5 = 255) ∧
    ((0 : ℝ) ≤ 0.5 ∧ (0.5 : ℝ) ≤ 1 ∧ to_u8 0.5 = 128) := by
  refine ⟨⟨by norm_num, to_u8_clamp_linear.1 _ (by norm_num)⟩,
    ⟨by norm_num, to_u8_clamp_linear.2.1 _ (by norm_num)⟩,
    ⟨by norm_num, by norm_num, ?_⟩⟩
  rw [to_u8_clamp_linear.2.2.2.1 0.5 (by norm_num) (by norm_num)]
  norm_num

theorem pairStep_not_inRange (tmin tmax : EReal) (acc : Option (Sphere × ℝ))
    (p : Sphere × ℝ) (h : ¬inRange tmin tmax p.2) :
    pairStep tmin tmax acc p = acc := by
  obtain ⟨s, t⟩ := p
  unfold pairStep closestStep
  rw [if_neg h]

theorem pairStep_inRange (tmin tmax : EReal) (acc : Option (Sphere × ℝ))
    (p : Sphere × ℝ) (h : inRange tmin tmax p.2) :
    (pairStep tmin tmax acc p = some p ∧ ∀ a, acc = some a → p.2 < a.2) ∨
    (∃ a, acc = some a ∧ pairStep tmin tmax acc p = some a ∧ a.2 ≤ p.2) := by
  obtain ⟨s, t⟩ := p
  cases acc with
  | none =>
    left
    constructor
    · simp [pairStep, closestStep, h]
    · intro a ha
      cases ha
  | some a =>
    obtain ⟨s0, t0⟩ := a
    by_cases hlt : t < t0
    · left
      constructor
      · simp [pairStep, closestStep, h, hlt]
      · intro a ha
        injection ha with ha'
        rw [← ha']
        exact hlt
    · right
      refine ⟨(s0, t0), rfl, ?_, not_lt.mp hlt⟩
      simp [pairStep, closestStep, h, hlt]

theorem foldl_pairStep_eq_none_iff (tmin tmax : EReal) (l : List (Sphere × ℝ))
    (acc : Option (Sphere × ℝ)) :
    l.foldl (pairStep tmin tmax) acc = none ↔
      acc = none ∧ ∀ p ∈ l, ¬inRange tmin tmax p.2 := by
  induction l generalizing acc with
  | nil => simp
  | cons p l ih =>
    rw [List.foldl_cons, ih]
    constructor
    · rintro ⟨hstep, hall⟩
      by_cases hin : inRange tmin tmax p.2
      · rcases pairStep_inRange tmin tmax acc p hin with ⟨hq, -⟩ | ⟨a, -, hq, -⟩ <;>
          rw [hq] at hstep <;> cases hstep
      · rw [pairStep_not_inRange tmin tmax acc p hin] at hstep
        refine ⟨hstep, ?_⟩
        intro p' hp'
        rcases List.mem_cons.mp hp' with rfl | hp'
        · exact hin
        · exact hall p' hp'
    · rintro ⟨hacc, hall⟩
      have hin : ¬inRange tmin tmax p.2 := hall p (List.mem_cons_self p l)
      rw [pairStep_not_inRange tmin tmax acc p hin]
      exact ⟨hacc, fun p' hp' => hall p' (List.mem_cons_of_mem p hp')⟩

theorem foldl_pairStep_eq_some (tmin tmax : EReal) (l : List (Sphere × ℝ))
    (acc : Option (Sphere × ℝ)) (q : Sphere × ℝ)
    (h : l.foldl (pairStep tmin tmax) acc = some q) :
    (∀ p ∈ l, inRange tmin tmax p.2 → q.2 ≤ p.2) ∧
    (acc = some q ∨
      inRange tmin tmax q.2 ∧
        ∃ l1 l2, l = l1 ++ q :: l2 ∧
          (∀ p ∈ l1, inRange tmin tmax p.2 → q.2 < p.2) ∧
          ∀ a, acc = some a → q.2 < a.2) := by
  induction l generalizing acc with
  | nil =>
    simp only [List.foldl_nil] at h
    exact ⟨by simp, Or.inl h⟩
  | cons p l ih =>
    rw [List.foldl_cons] at h
    obtain ⟨hmin, hrest⟩ := ih (pairStep tmin tmax acc p) h
    by_cases hin : inRange tmin tmax p.2
    · rcases pairStep_inRange tmin tmax acc p hin with ⟨hstep, hstrictacc⟩ |
        ⟨a, hacca, hstep, halep⟩
      · -- the step takes `p`, strictly beating any accumulator value
        rcases hrest with hacc | ⟨hqin, l1, l2, hsplit, hstrict, hlt⟩
        · rw [hstep] at hacc
          injection hacc with hpq
          subst hpq
          constructor
          · intro p' hp' hin'
            rcases List.mem_cons.mp hp' with rfl | hp'
            · exact le_rfl
            · exact hmin p' hp' hin'
          · exact Or.inr ⟨hin, [], l, rfl, by simp, hstrictacc⟩
        · have hqp : q.2 < p.2 := hlt p hstep
          constructor
          · intro p' hp' hin'
            rcases List.mem_cons.mp hp' with rfl | hp'
            · exact hqp.le
            · exact hmin p' hp' hin'
          · refine Or.inr ⟨hqin, p :: l1, l2, by simp [hsplit], ?_, ?_⟩
            · intro p' hp' hin'
              rcases List.mem_cons.mp hp' with rfl | hp'
              · exact hqp
              · exact hstrict p' hp' hin'
            · intro a ha
              exact hqp.trans (hstrictacc a ha)
      · -- the step keeps the accumulator value `a`
        rcases hrest with hacc | ⟨hqin, l1, l2, hsplit, hstrict, hlt⟩
        · rw [hstep] at hacc
          injection hacc with haq
          subst haq
          constructor
          · intro p' hp' hin'
            rcases List.mem_cons.mp hp' with rfl | hp'
            · exact halep
            · exact hmin p' hp' hin'
          · exact Or.inl hacca
        · have hqa : q.2 < a.2 := hlt a hstep
          constructor
          · intro p' hp' hin'
            rcases List.mem_cons.mp hp' with rfl | hp'
            · exact (hqa.trans_le halep).le
            · exact hmin p' hp' hin'
          · refine Or.inr ⟨hqin, p :: l1, l2, by simp [hsplit], ?_, ?_⟩
            · intro p' hp' hin'
              rcases List.mem_cons.mp hp' with rfl | hp'
              · exact hqa.trans_le halep
              · exact hstrict p' hp' hin'
            · intro a' ha'
              rw [ha'] at hacca
              injection hacca with haa
              rw [haa]
              exact hqa
    · rw [pairStep_not_inRange tmin tmax acc p hin] at hrest
      constructor
      · intro p' hp' hin'
        rcases List.mem_cons.mp hp' with rfl | hp'
        · exact absurd hin' hin
        · exact hmin p' hp' hin'
      · rcases hrest with hacc | ⟨hqin, l1, l2, hsplit, hstrict, hlt⟩
        · exact Or.inl hacc
        · refine Or.inr ⟨hqin, p :: l1, l2, by simp [hsplit], ?_, hlt⟩
          intro p' hp' hin'
          rcases List.mem_cons.mp hp' with rfl | hp'
          · exact absurd hin' hin
          · exact hstrict p' hp' hin'

theorem flatMap_split {α β : Type} (f : α → List β) (l : List α) :
    ∀ (p1 p2 : List β) (x : β), l.flatMap f = p1 ++ x :: p2 →
      ∃ l1 a l2 xs1, l = l1 ++ a :: l2 ∧ (∃ xs2, f a = xs1 ++ x :: xs2) ∧
        p1 = l1.flatMap f ++ xs1 := by
  induction l with
  | nil =>
    intro p1 p2 x h
    rw [List.flatMap_nil] at h
    exact absurd h.symm (by simp)
  | cons a l ih =>
    intro p1 p2 x h
    rw [List.flatMap_cons] at h
    rcases List.append_eq_append_iff.mp h with ⟨a', ha1, ha2⟩ | ⟨c', hc1, hc2⟩
    · obtain ⟨l1, b, l2, xs1, hl, hfb, hp⟩ := ih a' p2 x ha2
      refine ⟨a :: l1, b, l2, xs1, by simp [hl], hfb, ?_⟩
      rw [ha1, hp, List.flatMap_cons, List.append_assoc]
    · cases c' with
      | nil =>
        obtain ⟨l1, b, l2, xs1, hl, hfb, hp⟩ := ih [] p2 x (by simpa using hc2.symm)
        obtain ⟨hp1, hp2⟩ := List.append_eq_nil.mp hp.symm
        refine ⟨a :: l1, b, l2, xs1, by simp [hl], hfb, ?_⟩
        rw [List.flatMap_cons, hp1, hp2]
        simp [hc1]
      | cons x' c'' =>
        injection hc2 with hx hrest
        exact ⟨[], a, l, p1, rfl, ⟨c'', by rw [hx]; exact hc1⟩, by simp⟩

theorem mem_candidatePairs {scene : Scene} {ray : Ray} {p : Sphere × ℝ} :
    p ∈ candidatePairs scene ray ↔
      p.1 ∈ scene.spheres ∧ p.2 ∈ p.1.intersect_ray ray := by
  obtain ⟨s, t⟩ := p
  unfold candidatePairs
  rw [List.mem_flatMap]
  constructor
  · rintro ⟨s', hs', hmem⟩
    obtain ⟨t', ht', hte⟩ := List.mem_map.mp hmem
    obtain ⟨rfl, rfl⟩ := Prod.mk.injEq .. ▸ And.intro (congrArg Prod.fst hte)
      (congrArg Prod.snd hte)
    exact ⟨hs', ht'⟩
  · rintro ⟨hs, ht⟩
    exact ⟨s, hs, List.mem_map.mpr ⟨t, ht, rfl⟩⟩

theorem closest_intersection_eq_pairs (scene : Scene) (ray : Ray) (tmin tmax : EReal) :
    closest_intersection scene ray tmin tmax =
      (candidatePairs scene ray).foldl (pairStep tmin tmax) none := by
  unfold closest_intersection candidatePairs
  generalize (none : Option (Sphere × ℝ)) = acc
  induction scene.spheres generalizing acc with
  | nil => rfl
  | cons s l ih =>
    rw [List.foldl_cons, List.flatMap_cons, List.foldl_append, List.foldl_map, ih]
    rfl

/-- C2: over the interval `[t_min, t_max)`, `closest_intersection` returns
`none` exactly when no sphere has an intersection `t` inside the interval;
and when it returns `some (s, t)`, `t` is an in-range intersection value of
`s`, is globally minimal among all spheres' in-range intersection values,
and every sphere listed before `s` in the scene has all of its in-range
intersection values strictly greater than `t` (ties go to the first
sphere). -/
theorem closest_intersection_spec (scene : Scene) (ray : Ray) (tmin tmax : EReal) :
    (closest_intersection scene ray tmin tmax = none ↔
      ∀ s ∈ scene.spheres, ∀ t ∈ s.intersect_ray ray, ¬inRange tmin tmax t) ∧
    ∀ s t, closest_intersection scene ray tmin tmax = some (s, t) →
      inRange tmin tmax t ∧ s ∈ scene.spheres ∧ t ∈ s.intersect_ray ray ∧
      (∀ s' ∈ scene.spheres, ∀ t' ∈ s'.intersect_ray ray, inRange tmin tmax t' → t ≤ t') ∧
      ∃ l1 l2, scene.spheres = l1 ++ s :: l2 ∧
        ∀ s' ∈ l1, ∀ t' ∈ s'.intersect_ray ray, inRange tmin tmax t' → t < t' := by
  constructor
  · rw [closest_intersection_eq_pairs, foldl_pairStep_eq_none_iff]
    constructor
    · rintro ⟨-, hall⟩ s hs t ht
      exact hall (s, t) (mem_candidatePairs.mpr ⟨hs, ht⟩)
    · intro hall
      exact ⟨rfl, fun p hp =>
        hall p.1 (mem_candidatePairs.mp hp).1 p.2 (mem_candidatePairs.mp hp).2⟩
  · intro s t h
    rw [closest_intersection_eq_pairs] at h
    obtain ⟨hmin, hrest⟩ := foldl_pairStep_eq_some tmin tmax _ none (s, t) h
    rcases hrest with hacc | ⟨hin, l1, l2, hsplit, hstrict, -⟩
    · cases hacc
    · have hmem : (s, t) ∈ candidatePairs scene ray := by rw [hsplit]; simp
      obtain ⟨hs, ht⟩ := mem_candidatePairs.mp hmem
      refine ⟨hin, hs, ht, ?_, ?_⟩
      · intro s' hs' t' ht' hin'
        exact hmin (s', t') (mem_candidatePairs.mpr ⟨hs', ht'⟩) hin'
      · obtain ⟨sl1, a, sl2, xs1, hl, ⟨xs2, hfa⟩, hp1⟩ :=
          flatMap_split _ scene.spheres l1 l2 (s, t) hsplit
        have has : a = s := by
          have hmem2 : (s, t) ∈ (a.intersect_ray ray).map fun t => (a, t) := by
            rw [hfa]; simp
          obtain ⟨t'', -, ht''⟩ := List.mem_map.mp hmem2
          exact congrArg Prod.fst ht''
        refine ⟨sl1, sl2, by rw [hl, has], ?_⟩
        intro s' hs' t' ht' hin'
        have hmem1 : (s', t') ∈ l1 := by
          rw [hp1]
          exact List.mem_append_left _
            (List.mem_flatMap.mpr ⟨s', hs', List.mem_map.mpr ⟨t', ht', rfl⟩⟩)
        exact hstrict (s', t') hmem1 hin'

theorem sqrt_four : Real.sqrt 4 = 2 := by
  rw [show (4 : ℝ) = 2 ^ 2 by norm_num]
  exact Real.sqrt_sq (by norm_num)

theorem exSphere_intersect_ray : exSphere.intersect_ray exRay = [2, 4] := by
  unfold exSphere exRay
  simp only [Sphere.intersect_ray]
  norm_num [Vec3.dot, sqrt_four]

theorem inRange_one_ten_two : inRange ((1 : ℝ) : EReal) ((10 : ℝ) : EReal) 2 := by
  unfold inRange
  exact ⟨by exact_mod_cast (by norm_num : (1 : ℝ) ≤ 2),
    by exact_mod_cast (by norm_num : (2 : ℝ) < 10)⟩

theorem exScene_closest :
    closest_intersection exScene exRay ((1 : ℝ) : EReal) ((10 : ℝ) : EReal) =
      some (exSphere, 2) := by
  have h4 : inRange ((1 : ℝ) : EReal) ((10 : ℝ) : EReal) 4 := by
    unfold inRange
    exact ⟨by exact_mod_cast (by norm_num : (1 : ℝ) ≤ 4),
      by exact_mod_cast (by norm_num : (4 : ℝ) < 10)⟩
  have s1 : closestStep ((1 : ℝ) : EReal) ((10 : ℝ) : EReal) none exSphere 2 =
      some (exSphere, 2) := by
    unfold closestStep
    rw [if_pos inRange_one_ten_two]
  have s2 : closestStep ((1 : ℝ) : EReal) ((10 : ℝ) : EReal) (some (exSphere, 2)) exSphere 4 =
      some (exSphere, 2) := by
    unfold closestStep
    rw [if_pos h4]
    show (if (4 : ℝ) < 2 then some (exSphere, (4 : ℝ)) else some (exSphere, (2 : ℝ))) =
      some (exSphere, (2 : ℝ))
    rw [if_neg (by norm_num)]
  show (exScene.spheres).foldl _ none = _
  rw [show exScene.spheres = [exSphere] from rfl]
  rw [List.foldl_cons, List.foldl_nil, exSphere_intersect_ray, List.foldl_cons,
    List.foldl_cons, List.foldl_nil, s1, s2]

/-- C2 witness: in the one-sphere scene `exScene`, the ray `exRay` over
the interval `[1, 10)` hits `exSphere` at `t = 2`, which the claim theorem
then certifies as an in-range intersection value of a scene sphere. -/
theorem closest_intersection_spec_witness :
    inRange ((1 : ℝ) : EReal) ((10 : ℝ) : EReal) 2 ∧
    exSphere ∈ exScene.spheres ∧ (2 : ℝ) ∈ exSphere.intersect_ray exRay := by
  have key := (closest_intersection_spec exScene exRay ((1 : ℝ) : EReal)
    ((10 : ℝ) : EReal)).2 exSphere 2 exScene_closest
  exact ⟨key.1, key.2.1, key.2.2.1⟩

theorem foldl_add_eq_sum (f : Light → ℝ) (l : List Light) (init : ℝ) :
    l.foldl (fun i light => i + f light) init = init + (l.map f).sum := by
  induction l generalizing init with
  | nil => simp
  | cons a l ih =>
    rw [List.foldl_cons, ih, List.map_cons, List.sum_cons]
    ring

/-- C4: `compute_lighting` accumulates exactly the per-light
contributions, and a non-ambient light whose shadow query — over the range
from `0.001` up to `1.0` for a point light, infinity for a directional
light, along the light vector from the shading point — finds any hit
contributes exactly zero. -/
theorem compute_lighting_shadow (scene : Scene) (p n v : Vec3) (specular : Option ℤ) :
    compute_lighting scene p n v specular =
      (scene.lights.map (lightContribution scene p n v specular)).sum ∧
    (∀ light : Light, ∀ position : Vec3, light.source = LightSource.point position →
      (closest_intersection scene ⟨p, position - p⟩ ((0.001 : ℝ) : EReal)
          ((1 : ℝ) : EReal)).isSome = true →
      lightContribution scene p n v specular light = 0) ∧
    (∀ light : Light, ∀ direction : Vec3, light.source = LightSource.directional direction →
      (closest_intersection scene ⟨p, direction⟩ ((0.001 : ℝ) : EReal) ⊤).isSome = true →
      lightContribution scene p n v specular light = 0) := by
  refine ⟨?_, ?_, ?_⟩
  · unfold compute_lighting
    rw [foldl_add_eq_sum, zero_add]
  · intro light position hsrc hhit
    obtain ⟨intensity, src⟩ := light
    simp only at hsrc
    subst hsrc
    simp only [lightContribution]
    unfold nonAmbientContribution
    rw [if_pos hhit]
  · intro light direction hsrc hhit
    obtain ⟨intensity, src⟩ := light
    simp only at hsrc
    subst hsrc
    simp only [lightContribution]
    unfold nonAmbientContribution
    rw [if_pos hhit]

theorem sqrt_sixtyfour : Real.sqrt 64 = 8 := by
  rw [show (64 : ℝ) = 8 ^ 2 by norm_num]
  exact Real.sqrt_sq (by norm_num)

theorem exShadow_intersect :
    exSphere.intersect_ray ⟨Vec3.new 0 0 1, Vec3.new 0 0 4⟩ = [0.25, 0.75] := by
  unfold exSphere
  simp only [Sphere.intersect_ray]
  norm_num [Vec3.dot, sqrt_sixtyfour]

theorem exShadow_closest_isSome :
    (closest_intersection exScene ⟨Vec3.new 0 0 1, Vec3.new 0 0 4⟩
      ((0.001 : ℝ) : EReal) ((1 : ℝ) : EReal)).isSome = true := by
  have h1 : inRange ((0.001 : ℝ) : EReal) ((1 : ℝ) : EReal) 0.25 := by
    unfold inRange
    exact ⟨by exact_mod_cast (by norm_num : (0.001 : ℝ) ≤ 0.25),
      by exact_mod_cast (by norm_num : (0.25 : ℝ) < 1)⟩
  have h2 : inRange ((0.001 : ℝ) : EReal) ((1 : ℝ) : EReal) 0.75 := by
    unfold inRange
    exact ⟨by exact_mod_cast (by norm_num : (0.001 : ℝ) ≤ 0.75),
      by exact_mod_cast (by norm_num : (0.75 : ℝ) < 1)⟩
  have s1 : closestStep ((0.001 : ℝ) : EReal) ((1 : ℝ) : EReal) none exSphere 0.25 =
      some (exSphere, 0.25) := by
    unfold closestStep
    rw [if_pos h1]
  have s2 : closestStep ((0.001 : ℝ) : EReal) ((1 : ℝ) : EReal) (some (exSphere, 0.25))
      exSphere 0.75 = some (exSphere, 0.25) := by
    unfold closestStep
    rw [if_pos h2]
    show (if (0.75 : ℝ) < 0.25 then some (exSphere, (0.75 : ℝ))
      else some (exSphere, (0.25 : ℝ))) = some (exSphere, (0.25 : ℝ))
    rw [if_neg (by norm_num)]
  show ((exScene.spheres).foldl _ none).isSome = true
  rw [show exScene.spheres = [exSphere] from rfl]
  rw [List.foldl_cons, List.foldl_nil, exShadow_intersect, List.foldl_cons,
    List.foldl_cons, List.foldl_nil, s1, s2]
  rfl

/-- C4 witness: in `exScene` the point light at `(0,0,5)` seen from the
shading point `(0,0,1)` is blocked by `exSphere` (the shadow ray hits it at
`t = 0.25 ∈ [0.001, 1)`), so its contribution is exactly zero. -/
theorem compute_lighting_shadow_witness :
    lightContribution exScene (Vec3.new 0 0 1) (Vec3.new 0 0 1) (Vec3.new 0 0 1) none
      ⟨0.7, LightSource.point (Vec3.new 0 0 5)⟩ = 0 := by
  have hsub : Vec3.new 0 0 5 - Vec3.new 0 0 1 = Vec3.new 0 0 4 := by
    rw [Vec3.eq_iff_components]
    norm_num
  apply (compute_lighting_shadow exScene (Vec3.new 0 0 1) (Vec3.new 0 0 1)
    (Vec3.new 0 0 1) none).2.1 _ (Vec3.new 0 0 5) rfl
  rw [hsub]
  exact exShadow_closest_isSome

theorem Vec3.len_nonneg (v : Vec3) : 0 ≤ v.len := Real.sqrt_nonneg _

theorem nonAmbientContribution_nonneg (scene : Scene) (p n v : Vec3)
    (specular : Option ℤ) (intensity : ℝ) (l : Vec3) (t_max : EReal)
    (h : 0 ≤ intensity) :
    0 ≤ nonAmbientContribution scene p n v specular intensity l t_max := by
  unfold nonAmbientContribution
  split_ifs with hs
  · exact le_rfl
  · apply add_nonneg
    · split_ifs with hd
      · exact div_nonneg (mul_nonneg h hd.le)
          (mul_nonneg (Vec3.len_nonneg n) (Vec3.len_nonneg l))
      · exact le_rfl
    · cases specular with
      | none => exact le_rfl
      | some s =>
        simp only [Option.elim]
        split_ifs with hr
        · exact mul_nonneg h (zpow_nonneg (div_nonneg hr.le
            (mul_nonneg (Vec3.len_nonneg _) (Vec3.len_nonneg v))) s)
        · exact le_rfl

theorem lightContribution_nonneg (scene : Scene) (p n v : Vec3) (specular : Option ℤ)
    (light : Light) (h : 0 ≤ light.intensity) :
    0 ≤ lightContribution scene p n v specular light := by
  obtain ⟨intensity, src⟩ := light
  cases src with
  | ambient => exact h
  | point position =>
      exact nonAmbientContribution_nonneg scene p n v specular intensity _ _ h
  | directional direction =>
      exact nonAmbientContribution_nonneg scene p n v specular intensity _ _ h

/-- C10: when every light of the scene has non-negative intensity,
`compute_lighting` returns a non-negative value: ambient contributions are
the intensities themselves and each diffuse and specular term is zero or a
product of non-negative factors. -/
theorem compute_lighting_nonneg (scene : Scene) (p n v : Vec3) (specular : Option ℤ)
    (hl : ∀ light ∈ scene.lights, 0 ≤ light.intensity) :
    0 ≤ compute_lighting scene p n v specular := by
  unfold compute_lighting
  rw [foldl_add_eq_sum, zero_add]
  apply List.sum_nonneg
  intro x hx
  obtain ⟨light, hlight, rfl⟩ := List.mem_map.mp hx
  exact lightContribution_nonneg scene p n v specular light (hl light hlight)

/-- C10 witness: a scene with a single ambient light of intensity `0.8`
has non-negative lighting at a concrete point. -/
theorem compute_lighting_nonneg_witness :
    0 ≤ compute_lighting ⟨Color.BLACK, [⟨0.8, LightSource.ambient⟩], []⟩
      (Vec3.new 0 0 0) (Vec3.new 0 0 1) (Vec3.new 0 0 1) none := by
  apply compute_lighting_nonneg
  intro light hlight
  simp only [List.mem_singleton] at hlight
  subst hlight
  norm_num

/-- C3: `trace_ray` returns the background color on no hit; on a hit it
returns the local color `material.color * compute_lighting(p, n, -dir,
specular)` unchanged when the budget is exhausted or the reflectivity is
non-positive, and otherwise blends it with the recursively traced
reflection over `(0.001, ∞)` at budget `d - 1`, weighted by the
reflectivity. -/
theorem trace_ray_cases (scene : Scene) (ray : Ray) (tmin tmax : EReal) (d : ℤ) :
    (closest_intersection scene ray tmin tmax = none →
      trace_ray scene ray tmin tmax d = scene.background_color) ∧
    ∀ sphere t, closest_intersection scene ray tmin tmax = some (sphere, t) →
      (d ≤ 0 ∨ sphere.material.reflective ≤ 0 →
        trace_ray scene ray tmin tmax d =
          sphere.material.color *
            compute_lighting scene (ray.at t) ((ray.at t - sphere.center).normalized)
              (-ray.direction) sphere.material.specular) ∧
      (0 < d → 0 < sphere.material.reflective →
        trace_ray scene ray tmin tmax d =
          (sphere.material.color *
              compute_lighting scene (ray.at t) ((ray.at t - sphere.center).normalized)
                (-ray.direction) sphere.material.specular) *
            (1 - sphere.material.reflective) +
          trace_ray scene
              ⟨ray.at t, reflect_ray ray.direction ((ray.at t - sphere.center).normalized)⟩
              ((0.001 : ℝ) : EReal) ⊤ (d - 1) *
            sphere.material.reflective) := by
  constructor
  · intro h
    rw [trace_ray, h]
  · intro sphere t h
    constructor
    · intro hterm
      rw [trace_ray, h]
      exact dif_pos hterm
    · intro hd hr
      rw [trace_ray, h]
      exact dif_neg (not_or.mpr ⟨not_le.mpr hd, not_le.mpr hr⟩)

/-- C3 witness: in `exScene` (no lights, one non-reflective sphere), the
ray `exRay` over `[1, 10)` hits `exSphere` at `t = 2` and, the budget
being 0, `trace_ray` returns exactly the local color. -/
theorem trace_ray_cases_witness :
    trace_ray exScene exRay ((1 : ℝ) : EReal) ((10 : ℝ) : EReal) 0 =
      exSphere.material.color *
        compute_lighting exScene (exRay.at 2) ((exRay.at 2 - exSphere.center).normalized)
          (-exRay.direction) exSphere.material.specular :=
  ((trace_ray_cases exScene exRay ((1 : ℝ) : EReal) ((10 : ℝ) : EReal) 0).2 exSphere 2
    exScene_closest).1 (Or.inl le_rfl)

/-- C6: `trace_ray` terminates with its reflection recursion nesting at
most `max d 0` levels: the fueled variant already succeeds with fuel
`d.toNat` and returns exactly `trace_ray`'s value.  In particular with
budget 0 no reflection ray is traced (fuel 0 suffices). -/
theorem trace_ray_fuel_bound (scene : Scene) (ray : Ray) (tmin tmax : EReal) (d : ℤ)
    (fuel : ℕ) (hfuel : d.toNat ≤ fuel) :
    trace_ray_fuel fuel scene ray tmin tmax d = some (trace_ray scene ray tmin tmax d) := by
  induction fuel generalizing ray tmin tmax d with
  | zero =>
    have hd : d ≤ 0 := by omega
    rw [trace_ray_fuel, trace_ray]
    cases hc : closest_intersection scene ray tmin tmax with
    | none => rfl
    | some q =>
      obtain ⟨sphere, t⟩ := q
      dsimp only
      rw [if_pos (Or.inl hd), dif_pos (Or.inl hd)]
  | succ f ih =>
    rw [trace_ray_fuel, trace_ray]
    cases hc : closest_intersection scene ray tmin tmax with
    | none => rfl
    | some q =>
      obtain ⟨sphere, t⟩ := q
      by_cases hterm : d ≤ 0 ∨ sphere.material.reflective ≤ 0
      · dsimp only
        rw [if_pos hterm, dif_pos hterm]
      · dsimp only
        rw [if_neg hterm, dif_neg hterm]
        have hdpos : 0 < d := by
          rcases not_or.mp hterm with ⟨h1, -⟩
          exact not_le.mp h1
        rw [ih _ _ _ _ (by omega)]
        rfl

/-- C6 witness: with budget 0 the fueled tracer already succeeds with
fuel 0 — no reflection ray is traced — and returns `trace_ray`'s value. -/
theorem trace_ray_fuel_bound_witness :
    trace_ray_fuel 0 exScene exRay ((1 : ℝ) : EReal) ((10 : ℝ) : EReal) 0 =
      some (trace_ray exScene exRay ((1 : ℝ) : EReal) ((10 : ℝ) : EReal) 0) :=
  trace_ray_fuel_bound exScene exRay ((1 : ℝ) : EReal) ((10 : ℝ) : EReal) 0 0 (by decide)

theorem Color.BLACK_r : Color.BLACK.r = 0 := rfl

theorem Color.BLACK_g : Color.BLACK.g = 0 := rfl

theorem Color.BLACK_b : Color.BLACK.b = 0 := rfl

theorem Color.add_assoc' (a b c : Color) : a + b + c = a + (b + c) := by
  rw [Color.eq_iff_channels]
  refine ⟨?_, ?_, ?_⟩ <;>
    simp only [Color.add_r, Color.add_g, Color.add_b] <;> ring

theorem Color.black_add (a : Color) : Color.BLACK + a = a := by
  rw [Color.eq_iff_channels]
  refine ⟨?_, ?_, ?_⟩ <;>
    simp only [Color.add_r, Color.add_g, Color.add_b, Color.BLACK_r, Color.BLACK_g,
      Color.BLACK_b] <;> ring

theorem Color.add_black (a : Color) : a + Color.BLACK = a := by
  rw [Color.eq_iff_channels]
  refine ⟨?_, ?_, ?_⟩ <;>
    simp only [Color.add_r, Color.add_g, Color.add_b, Color.BLACK_r, Color.BLACK_g,
      Color.BLACK_b] <;> ring

theorem Color.smul_black (k : ℝ) : k * Color.BLACK = Color.BLACK := by
  rw [Color.eq_iff_channels]
  refine ⟨?_, ?_, ?_⟩ <;>
    simp only [Color.smul_r, Color.smul_g, Color.smul_b, Color.BLACK_r, Color.BLACK_g,
      Color.BLACK_b] <;> ring

theorem Color.smul_add (k : ℝ) (a b : Color) : k * (a + b) = k * a + k * b := by
  rw [Color.eq_iff_channels]
  refine ⟨?_, ?_, ?_⟩ <;>
    simp only [Color.smul_r, Color.smul_g, Color.smul_b, Color.add_r, Color.add_g,
      Color.add_b] <;> ring

theorem foldl_color_add (l : List Color) : ∀ z : Color, l.foldl (· + ·) z = z + colorSum l := by
  induction l with
  | nil =>
    intro z
    rw [List.foldl_nil, colorSum, List.foldl_nil, Color.add_black]
  | cons a l ih =>
    intro z
    have hcons : colorSum (a :: l) = a + colorSum l := by
      rw [show colorSum (a :: l) = List.foldl (· + ·) (Color.BLACK + a) l from rfl,
        Color.black_add, ih]
    rw [List.foldl_cons, ih, hcons, Color.add_assoc']

theorem colorSum_cons (a : Color) (l : List Color) : colorSum (a :: l) = a + colorSum l := by
  rw [show colorSum (a :: l) = List.foldl (· + ·) (Color.BLACK + a) l from rfl,
    Color.black_add, foldl_color_add]

theorem colorSum_append (l1 l2 : List Color) :
    colorSum (l1 ++ l2) = colorSum l1 + colorSum l2 := by
  show List.foldl _ _ (l1 ++ l2) = _
  rw [List.foldl_append]
  exact foldl_color_add l2 (colorSum l1)

theorem colorSum_flatMap {α : Type} (g : α → List Color) (l : List α) :
    colorSum (l.flatMap g) = colorSum (l.map fun a => colorSum (g a)) := by
  induction l with
  | nil => rfl
  | cons a l ih =>
    rw [List.flatMap_cons, colorSum_append, List.map_cons, colorSum_cons, ih]

theorem foldl_add_smul {α : Type} (h : α → Color) (l : List α) :
    ∀ z : Color, l.foldl (fun a o => a + (0.04 : ℝ) * h o) z =
      z + (0.04 : ℝ) * colorSum (l.map h) := by
  induction l with
  | nil =>
    intro z
    rw [List.foldl_nil, List.map_nil, colorSum, List.foldl_nil, Color.smul_black,
      Color.add_black]
  | cons a l ih =>
    intro z
    rw [List.foldl_cons, ih, List.map_cons, colorSum_cons, Color.smul_add,
      ← Color.add_assoc']

theorem pixelSampleFold_eq (rt : Raytracer) (x y : ℤ) :
    pixelSampleFold rt x y = ((1 : ℝ) / 25) * colorSum (sampleColors rt x y) := by
  unfold pixelSampleFold sampleColors
  simp only [foldl_add_smul]
  rw [colorSum_flatMap, Color.black_add]
  rw [Color.eq_iff_channels]
  refine ⟨?_, ?_, ?_⟩ <;>
    simp only [Color.smul_r, Color.smul_g, Color.smul_b] <;> norm_num

theorem mem_intRange {lo hi a : ℤ} : a ∈ intRange lo hi ↔ lo ≤ a ∧ a < hi := by
  unfold intRange
  rw [List.mem_map]
  constructor
  · rintro ⟨i, hmem, rfl⟩
    rw [List.mem_range] at hmem
    omega
  · rintro ⟨h1, h2⟩
    exact ⟨(a - lo).toNat, List.mem_range.mpr (by omega), by omega⟩

theorem intRange_nodup (lo hi : ℤ) : (intRange lo hi).Nodup := by
  unfold intRange
  exact List.Nodup.map (fun a b h => by omega) (List.nodup_range _)

theorem get_fold_col_width (x' : ℤ) (g : ℤ → Color) (ys : List ℤ) :
    ∀ c : Canvas, (ys.foldl (fun cv y' => cv.put_pixel x' y' (g y')) c).width = c.width := by
  induction ys with
  | nil => intro c; rfl
  | cons y0 ys ih =>
    intro c
    rw [List.foldl_cons, ih, Canvas.put_pixel_width]

theorem get_fold_col_height (x' : ℤ) (g : ℤ → Color) (ys : List ℤ) :
    ∀ c : Canvas, (ys.foldl (fun cv y' => cv.put_pixel x' y' (g y')) c).height = c.height := by
  induction ys with
  | nil => intro c; rfl
  | cons y0 ys ih =>
    intro c
    rw [List.foldl_cons, ih, Canvas.put_pixel_height]

theorem get_fold_col_length (x' : ℤ) (g : ℤ → Color) (ys : List ℤ) :
    ∀ c : Canvas,
      (ys.foldl (fun cv y' => cv.put_pixel x' y' (g y')) c).pixels.length =
        c.pixels.length := by
  induction ys with
  | nil => intro c; rfl
  | cons y0 ys ih =>
    intro c
    rw [List.foldl_cons, ih, Canvas.put_pixel_length]

theorem Canvas.inBounds_put_iff (c : Canvas) (a b x y : ℤ) (col : Color) :
    (c.put_pixel a b col).inBounds x y ↔ c.inBounds x y := by
  unfold Canvas.inBounds
  rw [Canvas.put_pixel_width, Canvas.put_pixel_height]

theorem Canvas.inBounds_fold_col_iff (x' : ℤ) (g : ℤ → Color) (ys : List ℤ) (c : Canvas)
    (x y : ℤ) :
    ((ys.foldl (fun cv y' => cv.put_pixel x' y' (g y')) c).inBounds x y) ↔ c.inBounds x y := by
  unfold Canvas.inBounds
  rw [get_fold_col_width, get_fold_col_height]

theorem get_fold_col_other (x' : ℤ) (g : ℤ → Color) (ys : List ℤ) :
    ∀ (c : Canvas) (x y : ℤ), c.inBounds x y → (∀ y'' ∈ ys, c.inBounds x' y'') →
      (x ≠ x' ∨ y ∉ ys) →
      (ys.foldl (fun cv y' => cv.put_pixel x' y' (g y')) c).get_pixel x y =
        c.get_pixel x y := by
  induction ys with
  | nil => intro c x y _ _ _; rfl
  | cons y0 ys ih =>
    intro c x y hb hbs hcond
    rw [List.foldl_cons]
    have hne : x ≠ x' ∨ y ≠ y0 := by
      rcases hcond with h | h
      · exact Or.inl h
      · exact Or.inr fun hy => h (hy ▸ List.mem_cons_self y0 ys)
    rw [ih (c.put_pixel x' y0 (g y0)) x y
      ((Canvas.inBounds_put_iff c x' y0 x y (g y0)).mpr hb)
      (fun y'' hy'' => (Canvas.inBounds_put_iff c x' y0 x' y'' (g y0)).mpr
        (hbs y'' (List.mem_cons_of_mem y0 hy'')))
      (by
        rcases hcond with h | h
        · exact Or.inl h
        · exact Or.inr fun hy => h (List.mem_cons_of_mem y0 hy))]
    exact Canvas.get_put_other c (g y0) (hbs y0 (List.mem_cons_self y0 ys)) hb hne

theorem get_fold_col_hit (x' : ℤ) (g : ℤ → Color) (ys : List ℤ) :
    ∀ (c : Canvas) (y : ℤ), ys.Nodup →
      c.pixels.length = c.width * c.height →
      (∀ y'' ∈ ys, c.inBounds x' y'') →
      y ∈ ys →
      (ys.foldl (fun cv y' => cv.put_pixel x' y' (g y')) c).get_pixel x' y = g y := by
  induction ys with
  | nil => intro c y _ _ _ h; cases h
  | cons y0 ys ih =>
    intro c y hnd hlen hbs hy
    rw [List.foldl_cons]
    rcases List.mem_cons.mp hy with rfl | hy'
    · rw [get_fold_col_other x' g ys (c.put_pixel x' y (g y)) x' y
        ((Canvas.inBounds_put_iff _ _ _ _ _ _).mpr (hbs y (List.mem_cons_self y ys)))
        (fun y'' hy'' => (Canvas.inBounds_put_iff _ _ _ _ _ _).mpr
          (hbs y'' (List.mem_cons_of_mem y hy'')))
        (Or.inr (List.nodup_cons.mp hnd).1)]
      exact Canvas.get_put_same c x' y (g y) hlen (hbs y (List.mem_cons_self y ys))
    · refine ih (c.put_pixel x' y0 (g y0)) y (List.nodup_cons.mp hnd).2 ?_
        (fun y'' hy'' => (Canvas.inBounds_put_iff _ _ _ _ _ _).mpr
          (hbs y'' (List.mem_cons_of_mem y0 hy''))) hy'
      rw [Canvas.put_pixel_length, Canvas.put_pixel_width, Canvas.put_pixel_height, hlen]

theorem get_fold_grid_other (f : ℤ → ℤ → Color) (ys : List ℤ) (xs : List ℤ) :
    ∀ (c : Canvas) (x y : ℤ), c.inBounds x y →
      (∀ x'' ∈ xs, ∀ y'' ∈ ys, c.inBounds x'' y'') →
      x ∉ xs →
      (xs.foldl (fun cv x' =>
        ys.foldl (fun cv2 y' => cv2.put_pixel x' y' (f x' y')) cv) c).get_pixel x y =
        c.get_pixel x y := by
  induction xs with
  | nil => intro c x y _ _ _; rfl
  | cons x0 xs ih =>
    intro c x y hb hbs hx
    rw [List.foldl_cons]
    rw [ih (ys.foldl (fun cv2 y' => cv2.put_pixel x0 y' (f x0 y')) c) x y
      ((Canvas.inBounds_fold_col_iff _ _ _ _ _ _).mpr hb)
      (fun x'' hx'' y'' hy'' => (Canvas.inBounds_fold_col_iff _ _ _ _ _ _).mpr
        (hbs x'' (List.mem_cons_of_mem x0 hx'') y'' hy''))
      (fun hmem => hx (List.mem_cons_of_mem x0 hmem))]
    exact get_fold_col_other x0 (f x0) ys c x y hb
      (hbs x0 (List.mem_cons_self x0 xs))
      (Or.inl fun hxx => hx (hxx ▸ List.mem_cons_self x0 xs))

theorem get_fold_grid_hit (f : ℤ → ℤ → Color) (ys : List ℤ) (xs : List ℤ) :
    ∀ (c : Canvas) (x y : ℤ), xs.Nodup → ys.Nodup →
      c.pixels.length = c.width * c.height →
      (∀ x'' ∈ xs, ∀ y'' ∈ ys, c.inBounds x'' y'') →
      x ∈ xs → y ∈ ys →
      (xs.foldl (fun cv x' =>
        ys.foldl (fun cv2 y' => cv2.put_pixel x' y' (f x' y')) cv) c).get_pixel x y =
        f x y := by
  induction xs with
  | nil => intro c x y _ _ _ _ h _; cases h
  | cons x0 xs ih =>
    intro c x y hndx hndy hlen hbs hx hy
    rw [List.foldl_cons]
    rcases List.mem_cons.mp hx with rfl | hx'
    · rw [get_fold_grid_other f ys xs (ys.foldl (fun cv2 y' => cv2.put_pixel x y' (f x y')) c)
        x y
        ((Canvas.inBounds_fold_col_iff _ _ _ _ _ _).mpr (hbs x (List.mem_cons_self x xs) y hy))
        (fun x'' hx'' y'' hy'' => (Canvas.inBounds_fold_col_iff _ _ _ _ _ _).mpr
          (hbs x'' (List.mem_cons_of_mem x hx'') y'' hy''))
        (List.nodup_cons.mp hndx).1]
      exact get_fold_col_hit x (f x) ys c y hndy hlen
        (hbs x (List.mem_cons_self x xs)) hy
    · refine ih (ys.foldl (fun cv2 y' => cv2.put_pixel x0 y' (f x0 y')) c) x y
        (List.nodup_cons.mp hndx).2 hndy ?_
        (fun x'' hx'' y'' hy'' => (Canvas.inBounds_fold_col_iff _ _ _ _ _ _).mpr
          (hbs x'' (List.mem_cons_of_mem x0 hx'') y'' hy'')) hx' hy
      rw [get_fold_col_length, get_fold_col_width, get_fold_col_height, hlen]

theorem go_eq_fold (rt : Raytracer) :
    rt.go =
      (intRange (-((rt.canvas_width : ℤ) / 2)) ((rt.canvas_width : ℤ) / 2)).foldl
        (fun canvas x =>
          (intRange (-((rt.canvas_height : ℤ) / 2)) ((rt.canvas_height : ℤ) / 2)).foldl
            (fun canvas y => canvas.put_pixel x y (pixelSampleFold rt x y)) canvas)
        (Canvas.new rt.canvas_width rt.canvas_height) := rfl

/-- C5: for every pixel of the centered canvas grid, `Raytracer::go`
writes the equal-weight average — `(1/25) ·` the sum — of the 25 colors
obtained by tracing one ray per sub-pixel offset pair over `[1.0, ∞)` with
recursion budget 3 (`sampleColors` lists exactly those 25 samples). -/
theorem go_pixel_average (rt : Raytracer) (x y : ℤ)
    (hx1 : -((rt.canvas_width / 2 : ℕ) : ℤ) ≤ x)
    (hx2 : x < ((rt.canvas_width / 2 : ℕ) : ℤ))
    (hy1 : -((rt.canvas_height / 2 : ℕ) : ℤ) ≤ y)
    (hy2 : y < ((rt.canvas_height / 2 : ℕ) : ℤ)) :
    (rt.go).get_pixel x y = ((1 : ℝ) / 25) * colorSum (sampleColors rt x y) ∧
    (sampleColors rt x y).length = 25 := by
  have hdivw : (rt.canvas_width : ℤ) / 2 = ((rt.canvas_width / 2 : ℕ) : ℤ) := by omega
  have hdivh : (rt.canvas_height : ℤ) / 2 = ((rt.canvas_height / 2 : ℕ) : ℤ) := by omega
  constructor
  · rw [go_eq_fold]
    rw [get_fold_grid_hit (fun x y => pixelSampleFold rt x y) _ _
      (Canvas.new rt.canvas_width rt.canvas_height) x y
      (intRange_nodup _ _) (intRange_nodup _ _)
      (by simp [Canvas.new])
      (fun x'' hx'' y'' hy'' => by
        obtain ⟨ha, hb⟩ := mem_intRange.mp hx''
        obtain ⟨hc, hd⟩ := mem_intRange.mp hy''
        simp only [Canvas.inBounds, Canvas.new]
        omega)
      (mem_intRange.mpr ⟨by omega, by omega⟩)
      (mem_intRange.mpr ⟨by omega, by omega⟩)]
    exact pixelSampleFold_eq rt x y
  · rfl

/-- C5 witness: on a 2×2 render of `exScene`, the pixel `(0, 0)` of the
finished canvas holds the 25-sample equal-weight average. -/
theorem go_pixel_average_witness :
    (Raytracer.go ⟨2, 2, 1, 1, 1, exScene⟩).get_pixel 0 0 =
      ((1 : ℝ) / 25) * colorSum (sampleColors ⟨2, 2, 1, 1, 1, exScene⟩ 0 0) ∧
    (sampleColors ⟨2, 2, 1, 1, 1, exScene⟩ 0 0).length = 25 :=
  go_pixel_average ⟨2, 2, 1, 1, 1, exScene⟩ 0 0 (by norm_num) (by norm_num)
    (by norm_num) (by norm_num)

end Raytracing
